import Mathlib

/-!
Shallow embedding of `TFC_anvil_calculator.py`.

The program searches for a multiset of "modifier" values, drawn from a fixed
list, whose sum equals a target integer.  Python tuples become `List ℤ`,
Python sets of tuples become deduplicated `List (List ℤ)` (membership is the
set, the list order models the implementation-defined iteration order),
Python's `sorted` becomes insertion sort by `≤`, Python's floor division `//`
becomes `Int.fdiv`, and the unbounded `while True` loop in `main` becomes a
fuel-indexed recursion whose fuel counts expansion rounds.
-/

/-- Python's `sorted` on a list of integers: sort ascending by `≤`. -/
def pysorted (l : List ℤ) : List ℤ :=
  List.insertionSort (· ≤ ·) l

/-- Python's `max` on a list of integers (`max` of a nonempty list; the
`[]` case is junk, Python would raise). -/
def pymax : List ℤ → ℤ
  | [] => 0
  | x :: xs => xs.foldl max x

/-- Python's `min` on a list of integers (`min` of a nonempty list; the
`[]` case is junk, Python would raise). -/
def pymin : List ℤ → ℤ
  | [] => 0
  | x :: xs => xs.foldl min x

/-- `detect_multiplier(target, modifiers)` from the source: pick
`base_modifier = max(modifiers)` and `temp = target - sum(positives)` when
`target > 0`, else `base_modifier = min(modifiers)` and
`temp = target + sum(negatives)`; return `(temp // base_modifier, base_modifier)`
with Python floor division. -/
def detect_multiplier (target : ℤ) (modifiers : List ℤ) : ℤ × ℤ :=
  let bt : ℤ × ℤ :=
    if 0 < target then
      (pymax modifiers, target - (modifiers.filter (fun m => decide (0 < m))).sum)
    else
      (pymin modifiers, target + (modifiers.filter (fun m => decide (m < 0))).sum)
  (Int.fdiv bt.2 bt.1, bt.1)

/-- `generate_multiplier_first_moves(r, p, modifiers)` from the source: if
`r <= 1` the set of all singleton tuples `(i,)` for `i` in `modifiers`,
otherwise the one-element set containing `p` repeated `r` times. -/
def generate_multiplier_first_moves (base_modifier_multiplier : ℤ)
    (base_modifier : ℤ) (modifiers : List ℤ) : List (List ℤ) :=
  if base_modifier_multiplier ≤ 1 then
    (modifiers.map (fun i => [i])).dedup
  else
    [List.replicate base_modifier_multiplier.toNat base_modifier]

/-- `multiplier_calibration(target, modifiers)` from the source: compose the
estimator and the seed generator. -/
def multiplier_calibration (target : ℤ) (modifiers : List ℤ) : List (List ℤ) :=
  let rp := detect_multiplier target modifiers
  generate_multiplier_first_moves rp.1 rp.2 modifiers

/-- `expand_modifiers(a, modifiers)` from the source:
`{tuple(sorted([*x, y])) for x in a for y in modifiers}`. -/
def expand_modifiers (a : List (List ℤ)) (modifiers : List ℤ) : List (List ℤ) :=
  (a.flatMap (fun x => modifiers.map (fun y => pysorted (x ++ [y])))).dedup

/-- The fixed modifier list of `main`: `[-5, -6, -9, -15, 2, 7, 13, 16]`. -/
def modifiers : List ℤ := [-5, -6, -9, -15, 2, 7, 13, 16]

/-- Outcome of a call to `main`: the raised `ValueError`, a returned answer,
or exhaustion of the fuel given to the embedded search loop. -/
inductive PyResult where
  | valueError : PyResult
  | ok : List ℤ → PyResult
  | diverge : PyResult
deriving DecidableEq

/-- The `while True` loop of `main`, fuel-indexed by the number of expansion
rounds it may still perform: scan the current candidate set for a combination
summing to the target, otherwise expand and recurse. -/
def searchLoop (target : ℤ) (mods : List ℤ) : Nat → List (List ℤ) → Option (List ℤ)
  | 0, _ => none
  | fuel + 1, combos =>
    match combos.find? (fun i => decide (i.sum = target)) with
    | some i => some i
    | none => searchLoop target mods fuel (expand_modifiers combos mods)

namespace TFC

/-- `main(target, *must_include)` from the source: validate the required
modifiers against the fixed list, subtract their sum from the target, seed via
`multiplier_calibration`, then run the search loop; the answer is
`must_include` concatenated with the found combination. -/
def main (target : ℤ) (must_include : List ℤ) (fuel : Nat) : PyResult :=
  if ∀ x ∈ must_include, x ∈ modifiers then
    match searchLoop (target - must_include.sum) modifiers fuel
        (multiplier_calibration (target - must_include.sum) modifiers) with
    | some i => PyResult.ok (must_include ++ i)
    | none => PyResult.diverge
  else
    PyResult.valueError

end TFC

/-- Iterated expansion: the candidate set scanned in round `k` of the loop
(round `0` being the seed itself). -/
def iterExpand (mods : List ℤ) : Nat → List (List ℤ) → List (List ℤ)
  | 0, a => a
  | k + 1, a => iterExpand mods k (expand_modifiers a mods)

/-! ### Basic lemmas about `pysorted` -/

lemma pysorted_sorted (l : List ℤ) : List.Sorted (· ≤ ·) (pysorted l) :=
  List.sorted_insertionSort _ l

lemma pysorted_perm (l : List ℤ) : (pysorted l).Perm l :=
  List.perm_insertionSort _ l

lemma pysorted_eq_self {l : List ℤ} (h : List.Sorted (· ≤ ·) l) : pysorted l = l :=
  List.eq_of_perm_of_sorted (pysorted_perm l) (pysorted_sorted l) h

lemma pysorted_congr {l₁ l₂ : List ℤ} (h : l₁.Perm l₂) : pysorted l₁ = pysorted l₂ :=
  List.eq_of_perm_of_sorted ((pysorted_perm l₁).trans (h.trans (pysorted_perm l₂).symm))
    (pysorted_sorted l₁) (pysorted_sorted l₂)

lemma pysorted_sum (l : List ℤ) : (pysorted l).sum = l.sum :=
  (pysorted_perm l).sum_eq

/-! ### Membership in `expand_modifiers` -/

lemma mem_expand_modifiers_iff {a : List (List ℤ)} {mods : List ℤ} {c : List ℤ} :
    c ∈ expand_modifiers a mods ↔ ∃ x ∈ a, ∃ y ∈ mods, c = pysorted (x ++ [y]) := by
  simp only [expand_modifiers, List.mem_dedup, List.mem_flatMap, List.mem_map]
  constructor
  · rintro ⟨x, hx, y, hy, rfl⟩
    exact ⟨x, hx, y, hy, rfl⟩
  · rintro ⟨x, hx, y, hy, rfl⟩
    exact ⟨x, hx, y, hy, rfl⟩

lemma mem_expand_modifiers {a : List (List ℤ)} {mods : List ℤ} {x : List ℤ} {y : ℤ}
    (hx : x ∈ a) (hy : y ∈ mods) : pysorted (x ++ [y]) ∈ expand_modifiers a mods :=
  mem_expand_modifiers_iff.mpr ⟨x, hx, y, hy, rfl⟩

/-! ### `pymax` and `pymin` compute the maximum and minimum -/

lemma foldl_max_eq_or_mem (xs : List ℤ) : ∀ a : ℤ, xs.foldl max a = a ∨ xs.foldl max a ∈ xs := by
  induction xs with
  | nil => intro a; left; rfl
  | cons y ys ih =>
    intro a
    rcases ih (max a y) with h | h
    · rcases max_choice a y with hm | hm
      · left; simpa [List.foldl_cons, hm] using h
      · right; rw [List.foldl_cons, h, hm]
        exact List.mem_cons_self _ _
    · right; exact List.mem_cons_of_mem _ h

lemma le_foldl_max (xs : List ℤ) :
    ∀ a : ℤ, a ≤ xs.foldl max a ∧ ∀ x ∈ xs, x ≤ xs.foldl max a := by
  induction xs with
  | nil => intro a; exact ⟨le_refl a, by simp⟩
  | cons y ys ih =>
    intro a
    obtain ⟨h1, h2⟩ := ih (max a y)
    refine ⟨le_trans (le_max_left a y) h1, ?_⟩
    intro x hx
    rcases List.mem_cons.mp hx with rfl | hx
    · exact le_trans (le_max_right a x) h1
    · exact h2 x hx

lemma pymax_mem {l : List ℤ} (h : l ≠ []) : pymax l ∈ l := by
  cases l with
  | nil => exact absurd rfl h
  | cons x xs =>
    rcases foldl_max_eq_or_mem xs x with he | hm
    · rw [pymax, he]; exact List.mem_cons_self _ _
    · exact List.mem_cons_of_mem _ (by rw [pymax]; exact hm)

lemma le_pymax {l : List ℤ} {x : ℤ} (hx : x ∈ l) : x ≤ pymax l := by
  cases l with
  | nil => cases hx
  | cons y ys =>
    rcases List.mem_cons.mp hx with rfl | hx
    · exact (le_foldl_max ys x).1
    · exact (le_foldl_max ys y).2 x hx

lemma foldl_min_eq_or_mem (xs : List ℤ) : ∀ a : ℤ, xs.foldl min a = a ∨ xs.foldl min a ∈ xs := by
  induction xs with
  | nil => intro a; left; rfl
  | cons y ys ih =>
    intro a
    rcases ih (min a y) with h | h
    · rcases min_choice a y with hm | hm
      · left; simpa [List.foldl_cons, hm] using h
      · right; rw [List.foldl_cons, h, hm]
        exact List.mem_cons_self _ _
    · right; exact List.mem_cons_of_mem _ h

lemma foldl_min_le (xs : List ℤ) :
    ∀ a : ℤ, xs.foldl min a ≤ a ∧ ∀ x ∈ xs, xs.foldl min a ≤ x := by
  induction xs with
  | nil => intro a; exact ⟨le_refl a, by simp⟩
  | cons y ys ih =>
    intro a
    obtain ⟨h1, h2⟩ := ih (min a y)
    refine ⟨le_trans h1 (min_le_left a y), ?_⟩
    intro x hx
    rcases List.mem_cons.mp hx with rfl | hx
    · exact le_trans h1 (min_le_right a x)
    · exact h2 x hx

lemma pymin_mem {l : List ℤ} (h : l ≠ []) : pymin l ∈ l := by
  cases l with
  | nil => exact absurd rfl h
  | cons x xs =>
    rcases foldl_min_eq_or_mem xs x with he | hm
    · rw [pymin, he]; exact List.mem_cons_self _ _
    · exact List.mem_cons_of_mem _ (by rw [pymin]; exact hm)

lemma pymin_le {l : List ℤ} {x : ℤ} (hx : x ∈ l) : pymin l ≤ x := by
  cases l with
  | nil => cases hx
  | cons y ys =>
    rcases List.mem_cons.mp hx with rfl | hx
    · exact (foldl_min_le ys x).1
    · exact (foldl_min_le ys y).2 x hx

/-! ### The search loop -/

lemma sorted_replicate (n : Nat) (p : ℤ) : List.Sorted (· ≤ ·) (List.replicate n p) := by
  induction n with
  | zero => simp
  | succ k ih =>
    rw [List.replicate_succ, List.sorted_cons]
    exact ⟨fun b hb => le_of_eq (List.eq_of_mem_replicate hb).symm, ih⟩

lemma searchLoop_sum {target : ℤ} {mods : List ℤ} :
    ∀ {fuel : Nat} {a : List (List ℤ)} {c : List ℤ},
      searchLoop target mods fuel a = some c → c.sum = target := by
  intro fuel
  induction fuel with
  | zero => intro a c h; cases h
  | succ k ih =>
    intro a c h
    rw [searchLoop] at h
    cases hf : a.find? (fun i => decide (i.sum = target)) with
    | none => rw [hf] at h; exact ih h
    | some i =>
      rw [hf] at h
      cases h
      have := List.find?_some hf
      exact of_decide_eq_true this

lemma searchLoop_finds {target : ℤ} {mods : List ℤ} :
    ∀ (k : Nat) (a : List (List ℤ)),
      (∃ c ∈ iterExpand mods k a, c.sum = target) →
      ∃ c, searchLoop target mods (k + 1) a = some c := by
  intro k
  induction k with
  | zero =>
    intro a ⟨c, hc, hsum⟩
    have hs : (a.find? (fun i => decide (i.sum = target))).isSome := by
      rw [List.find?_isSome]
      exact ⟨c, hc, by simpa using hsum⟩
    cases hf : a.find? (fun i => decide (i.sum = target)) with
    | none => rw [hf] at hs; cases hs
    | some i => exact ⟨i, by rw [searchLoop, hf]⟩
  | succ k ih =>
    intro a hex
    cases hf : a.find? (fun i => decide (i.sum = target)) with
    | none =>
      obtain ⟨c, hc⟩ := ih (expand_modifiers a mods) hex
      exact ⟨c, by rw [searchLoop, hf]; exact hc⟩
    | some i => exact ⟨i, by rw [searchLoop, hf]⟩

/-! ### What the expansion rounds contain -/

lemma mem_iterExpand {mods : List ℤ} :
    ∀ (l : List ℤ), (∀ m ∈ l, m ∈ mods) →
      ∀ {a : List (List ℤ)} {x : List ℤ}, x ∈ a → List.Sorted (· ≤ ·) x →
        pysorted (x ++ l) ∈ iterExpand mods l.length a := by
  intro l
  induction l with
  | nil =>
    intro _ a x hx hs
    rw [List.append_nil, pysorted_eq_self hs]
    exact hx
  | cons y l2 ih =>
    intro hl a x hx hs
    have hy : y ∈ mods := hl y (List.mem_cons_self _ _)
    have hx2 : pysorted (x ++ [y]) ∈ expand_modifiers a mods := mem_expand_modifiers hx hy
    have key := ih (fun m hm => hl m (List.mem_cons_of_mem _ hm)) hx2 (pysorted_sorted _)
    have hperm : (pysorted (x ++ [y]) ++ l2).Perm (x ++ y :: l2) := by
      calc (pysorted (x ++ [y]) ++ l2).Perm ((x ++ [y]) ++ l2) :=
            (pysorted_perm (x ++ [y])).append_right l2
        _ = x ++ y :: l2 := by rw [List.append_assoc]; rfl
    rw [pysorted_congr hperm] at key
    simpa [iterExpand, List.length_cons] using key

/-- Every integer is the sum of a nonempty list over `{2, -5}`, hence over the
fixed modifier list.  Constructive: step up by `[2, 2, -5, 2]` and down by
`[2, 2, -5]`. -/
lemma reach_any_int (n : ℤ) :
    ∃ l : List ℤ, l ≠ [] ∧ (∀ x ∈ l, x ∈ modifiers) ∧ l.sum = n := by
  induction n using Int.induction_on with
  | hz =>
    refine ⟨[2, 2, 2, 2, 2, -5, -5], by simp, ?_, by decide⟩
    decide
  | hp i ih =>
    obtain ⟨l, -, hmem, hsum⟩ := ih
    refine ⟨l ++ [2, 2, -5, 2], by simp, ?_, ?_⟩
    · intro x hx
      rcases List.mem_append.mp hx with hx | hx
      · exact hmem x hx
      · fin_cases hx <;> decide
    · rw [List.sum_append, hsum]
      simp only [List.sum_cons, List.sum_nil]
      ring
  | hn i ih =>
    obtain ⟨l, -, hmem, hsum⟩ := ih
    refine ⟨l ++ [2, 2, -5], by simp, ?_, ?_⟩
    · intro x hx
      rcases List.mem_append.mp hx with hx | hx
      · exact hmem x hx
      · fin_cases hx <;> decide
    · rw [List.sum_append, hsum]
      simp only [List.sum_cons, List.sum_nil]
      ring

/-! ### Count invariant through expansion -/

lemma count_le_of_mem_expand {a : List (List ℤ)} {mods : List ℤ} {p : ℤ} {n : Nat}
    (hinv : ∀ x ∈ a, n ≤ x.count p) :
    ∀ c ∈ expand_modifiers a mods, n ≤ c.count p := by
  intro c hc
  obtain ⟨x, hx, y, hy, rfl⟩ := mem_expand_modifiers_iff.mp hc
  have : (pysorted (x ++ [y])).count p = (x ++ [y]).count p :=
    (pysorted_perm (x ++ [y])).count_eq p
  rw [this, List.count_append]
  exact Nat.le_add_right_of_le (hinv x hx)

lemma count_le_of_mem_iterExpand {mods : List ℤ} {p : ℤ} {n : Nat} :
    ∀ (k : Nat) (a : List (List ℤ)), (∀ x ∈ a, n ≤ x.count p) →
      ∀ c ∈ iterExpand mods k a, n ≤ c.count p := by
  intro k
  induction k with
  | zero => intro a hinv c hc; exact hinv c hc
  | succ k ih =>
    intro a hinv c hc
    exact ih (expand_modifiers a mods) (count_le_of_mem_expand hinv) c hc

/-! ### The claims -/

/-- C1: for every integer target `T` and required list `R` drawn from the fixed
modifier set, whenever `main(T, *R)` returns a result, that result is `R`
concatenated with the combination matched by the search loop, and its sum
equals the original target `T`. -/
theorem main_result_is_required_plus_match (T : ℤ) (R ans : List ℤ) (fuel : Nat)
    (hR : ∀ x ∈ R, x ∈ modifiers) (h : TFC.main T R fuel = PyResult.ok ans) :
    ∃ c, searchLoop (T - R.sum) modifiers fuel
        (multiplier_calibration (T - R.sum) modifiers) = some c ∧
      ans = R ++ c ∧ ans.sum = T := by
  rw [TFC.main, if_pos hR] at h
  split at h
  case _ i heq =>
    injection h with h2
    refine ⟨i, heq, h2.symm, ?_⟩
    have hsum := searchLoop_sum heq
    rw [← h2, List.sum_append, hsum]
    ring
  case _ heq => simp at h

/-- Witness for C1 at `main(2)` with one round of fuel: the answer is `[2]`. -/
theorem main_result_is_required_plus_match_witness :
    ∃ c, searchLoop ((2 : ℤ) - ([] : List ℤ).sum) modifiers 1
        (multiplier_calibration ((2 : ℤ) - ([] : List ℤ).sum) modifiers) = some c ∧
      ([2] : List ℤ) = [] ++ c ∧ ([2] : List ℤ).sum = 2 :=
  main_result_is_required_plus_match 2 [] [2] 1 (by simp) (by decide)

/-- C2: `main(T, *R)` raises `ValueError` if and only if some element of `R`
is outside the fixed modifier list.  The equivalence holds for every target
and every amount of fuel, including zero fuel: the validation happens before
the target adjustment and before any search work. -/
theorem main_valueError_iff (T : ℤ) (R : List ℤ) (fuel : Nat) :
    TFC.main T R fuel = PyResult.valueError ↔ ∃ x ∈ R, x ∉ modifiers := by
  constructor
  · intro h
    by_contra hc
    push_neg at hc
    rw [TFC.main, if_pos hc] at h
    split at h <;> simp at h
  · rintro ⟨x, hx, hnot⟩
    rw [TFC.main, if_neg (fun hall => hnot (hall x hx))]

/-- C5 (amended): the first component of `detect_multiplier(T, M)` is the
floor division by the base modifier of the residual, where the residual is
`T` minus the sum of the positive modifiers when `T > 0`, and `T` plus the
sum of the negative modifiers when `T ≤ 0`. -/
theorem detect_multiplier_residual (T : ℤ) (M : List ℤ)
    (_hpos : ∃ x ∈ M, 0 < x) (_hneg : ∃ x ∈ M, x < 0) :
    (0 < T → (detect_multiplier T M).1 =
        Int.fdiv (T - (M.filter (fun m => decide (0 < m))).sum)
          ((detect_multiplier T M).2)) ∧
    (T ≤ 0 → (detect_multiplier T M).1 =
        Int.fdiv (T + (M.filter (fun m => decide (m < 0))).sum)
          ((detect_multiplier T M).2)) := by
  constructor
  · intro hT
    simp only [detect_multiplier, if_pos hT]
  · intro hT
    simp only [detect_multiplier, if_neg (not_lt.mpr hT)]

/-- Witness for C5 (amended) on the reference list at target `-50`. -/
theorem detect_multiplier_residual_witness :
    (detect_multiplier (-50) modifiers).1 =
      Int.fdiv ((-50) + (modifiers.filter (fun m => decide (m < 0))).sum)
        ((detect_multiplier (-50) modifiers).2) :=
  (detect_multiplier_residual (-50) modifiers ⟨2, by decide, by decide⟩
    ⟨-5, by decide, by decide⟩).2 (by decide)

/-- Counterexample to C5 as stated: at target `-50` on the reference list the
residual used by the code is `T + sum(negatives) = -85` (giving `r = 5`), not
`T - sum(negatives) = -15` (which would give `r = 1`). -/
theorem detect_multiplier_residual_counterexample :
    (∃ x ∈ modifiers, 0 < x) ∧ (∃ x ∈ modifiers, x < 0) ∧
    ¬ ((detect_multiplier (-50) modifiers).1 =
        Int.fdiv ((-50) - (modifiers.filter (fun m => decide (m < 0))).sum)
          ((detect_multiplier (-50) modifiers).2)) := by
  refine ⟨⟨2, by decide, by decide⟩, ⟨-5, by decide, by decide⟩, by decide⟩

/-- C6: the second component of `detect_multiplier(T, M)` is the maximum of
`M` when `T > 0` and the minimum of `M` when `T ≤ 0`; in particular target
`0` takes the minimum branch and yields `-15` on the reference list. -/
theorem detect_multiplier_extremal (T : ℤ) (M : List ℤ) (h : M ≠ []) :
    ((0 < T → (detect_multiplier T M).2 ∈ M ∧
        ∀ x ∈ M, x ≤ (detect_multiplier T M).2) ∧
      (T ≤ 0 → (detect_multiplier T M).2 ∈ M ∧
        ∀ x ∈ M, (detect_multiplier T M).2 ≤ x)) ∧
    (detect_multiplier 0 modifiers).2 = -15 := by
  refine ⟨⟨?_, ?_⟩, by decide⟩
  · intro hT
    have h2 : (detect_multiplier T M).2 = pymax M := by
      simp only [detect_multiplier, if_pos hT]
    rw [h2]
    exact ⟨pymax_mem h, fun x hx => le_pymax hx⟩
  · intro hT
    have h2 : (detect_multiplier T M).2 = pymin M := by
      simp only [detect_multiplier, if_neg (not_lt.mpr hT)]
    rw [h2]
    exact ⟨pymin_mem h, fun x hx => pymin_le hx⟩

/-- Witness for C6 at target `1` on the reference list: the base modifier is
a member of the list and is an upper bound for `13` in particular. -/
theorem detect_multiplier_extremal_witness :
    (detect_multiplier 1 modifiers).2 ∈ modifiers ∧
      (13 : ℤ) ≤ (detect_multiplier 1 modifiers).2 :=
  ⟨((detect_multiplier_extremal 1 modifiers (by decide)).1.1 (by decide)).1,
    ((detect_multiplier_extremal 1 modifiers (by decide)).1.1 (by decide)).2 13 (by decide)⟩

/-- C7: `generate_multiplier_first_moves(r, p, M)` contains exactly the
singleton combinations `[m]` for `m ∈ M` when `r ≤ 1`, and exactly the single
combination `p` repeated `r` times otherwise. -/
theorem generate_multiplier_first_moves_mem (r p : ℤ) (M : List ℤ) (c : List ℤ) :
    c ∈ generate_multiplier_first_moves r p M ↔
      ((r ≤ 1 ∧ ∃ m ∈ M, c = [m]) ∨ (1 < r ∧ c = List.replicate r.toNat p)) := by
  by_cases h : r ≤ 1
  · simp only [generate_multiplier_first_moves, if_pos h, List.mem_dedup, List.mem_map]
    constructor
    · rintro ⟨m, hm, rfl⟩
      exact Or.inl ⟨h, m, hm, rfl⟩
    · rintro (⟨-, m, hm, rfl⟩ | ⟨h2, -⟩)
      · exact ⟨m, hm, rfl⟩
      · exact absurd h2 (not_lt.mpr h)
  · simp only [generate_multiplier_first_moves, if_neg h, List.mem_singleton]
    constructor
    · intro hc
      exact Or.inr ⟨not_le.mp h, hc⟩
    · rintro (⟨h1, -⟩ | ⟨-, rfl⟩)
      · exact absurd h1 h
      · rfl

/-- C10: on the fixed modifier list, the base modifier chosen by
`detect_multiplier` is `16` for positive targets and `-15` otherwise, and it
is never zero, so the floor division of the estimation phase never divides by
zero. -/
theorem detect_multiplier_base_nonzero (T : ℤ) :
    (detect_multiplier T modifiers).2 = (if 0 < T then (16 : ℤ) else -15) ∧
      (detect_multiplier T modifiers).2 ≠ 0 := by
  by_cases h : 0 < T
  · simp only [detect_multiplier, if_pos h]
    exact ⟨by decide, by decide⟩
  · simp only [detect_multiplier, if_neg h]
    exact ⟨by decide, by decide⟩

/-- C4: `expand_modifiers(a, M)` is exactly the set of sorted tuples obtained
by appending each modifier of `M` to each tuple of `a`; when all tuples of `a`
have length `k` every element of the result has length `k + 1`; and the
result never contains two distinct elements that are permutations of one
another. -/
theorem expand_modifiers_spec (a : List (List ℤ)) (M : List ℤ) (k : Nat)
    (hlen : ∀ x ∈ a, x.length = k) :
    (∀ c, c ∈ expand_modifiers a M ↔ ∃ x ∈ a, ∃ y ∈ M, c = pysorted (x ++ [y])) ∧
    (∀ c ∈ expand_modifiers a M, c.length = k + 1) ∧
    (∀ c₁ ∈ expand_modifiers a M, ∀ c₂ ∈ expand_modifiers a M,
      c₁.Perm c₂ → c₁ = c₂) := by
  refine ⟨fun c => mem_expand_modifiers_iff, ?_, ?_⟩
  · intro c hc
    obtain ⟨x, hx, y, hy, rfl⟩ := mem_expand_modifiers_iff.mp hc
    rw [(pysorted_perm (x ++ [y])).length_eq, List.length_append, hlen x hx]
    rfl
  · intro c₁ h₁ c₂ h₂ hperm
    obtain ⟨x₁, hx₁, y₁, hy₁, rfl⟩ := mem_expand_modifiers_iff.mp h₁
    obtain ⟨x₂, hx₂, y₂, hy₂, rfl⟩ := mem_expand_modifiers_iff.mp h₂
    exact List.eq_of_perm_of_sorted hperm (pysorted_sorted _) (pysorted_sorted _)

/-- Witness for C4 at `a = {(1, 2)}`, `M = [3]`: the single expanded tuple is
the sorted `(1, 2, 3)`, of length `2 + 1`. -/
theorem expand_modifiers_spec_witness :
    ([1, 2, 3] : List ℤ) ∈ expand_modifiers [[1, 2]] [3] ∧
      ∀ c ∈ expand_modifiers [[1, 2]] [3], c.length = 2 + 1 := by
  have h := expand_modifiers_spec [[1, 2]] [3] 2 (by decide)
  exact ⟨(h.1 [1, 2, 3]).mpr ⟨[1, 2], by decide, 3, by decide, by decide⟩, h.2.1⟩

/-- C9: when the estimate `r` exceeds `1`, the seed is `p` repeated `r`
times, and since expansion only adds modifiers to existing combinations,
every candidate scanned in every round (round `k` being `iterExpand` applied
`k` times to the seed) contains at least `r` copies of the base modifier
`p`. -/
theorem search_keeps_seeded_copies (T : ℤ)
    (h : 1 < (detect_multiplier T modifiers).1) (k : Nat) (c : List ℤ)
    (hc : c ∈ iterExpand modifiers k (multiplier_calibration T modifiers)) :
    (detect_multiplier T modifiers).1.toNat ≤
      c.count ((detect_multiplier T modifiers).2) := by
  have hseed : multiplier_calibration T modifiers =
      [List.replicate (detect_multiplier T modifiers).1.toNat
        (detect_multiplier T modifiers).2] := by
    simp only [multiplier_calibration, generate_multiplier_first_moves]
    rw [if_neg (not_le.mpr h)]
  refine count_le_of_mem_iterExpand k _ ?_ c hc
  intro x hx
  rw [hseed, List.mem_singleton] at hx
  subst hx
  rw [List.count_replicate_self]

/-- Witness for C9 at target `100` (estimate `r = 3`, base `p = 16`), round
`1`, candidate `sorted((16, 16, 16, 2))`. -/
theorem search_keeps_seeded_copies_witness :
    (detect_multiplier 100 modifiers).1.toNat ≤
      (pysorted (List.replicate 3 16 ++ [2])).count
        ((detect_multiplier 100 modifiers).2) :=
  search_keeps_seeded_copies 100 (by decide) 1
    (pysorted (List.replicate 3 16 ++ [2])) (by decide)

/-- Counterexample to C8 as stated: nine distinct (unsorted) length-4 tuples
that are permutations of one another expand to only eight sorted tuples, so
the candidate set shrinks.  (Inside `main` this never happens because every
candidate produced by the program is sorted.) -/
theorem expand_modifiers_card_counterexample :
    ([[1, 2, 3, 4], [1, 2, 4, 3], [1, 3, 2, 4], [1, 3, 4, 2], [1, 4, 2, 3],
        [1, 4, 3, 2], [2, 1, 3, 4], [2, 1, 4, 3], [2, 3, 1, 4]] :
      List (List ℤ)).Nodup ∧
    ([[1, 2, 3, 4], [1, 2, 4, 3], [1, 3, 2, 4], [1, 3, 4, 2], [1, 4, 2, 3],
        [1, 4, 3, 2], [2, 1, 3, 4], [2, 1, 4, 3], [2, 3, 1, 4]] :
      List (List ℤ)).all (fun x => x.length == 4) = true ∧
    ([[1, 2, 3, 4], [1, 2, 4, 3], [1, 3, 2, 4], [1, 3, 4, 2], [1, 4, 2, 3],
        [1, 4, 3, 2], [2, 1, 3, 4], [2, 1, 4, 3], [2, 3, 1, 4]] :
      List (List ℤ)) ≠ [] ∧ modifiers ≠ [] ∧
    (expand_modifiers
        [[1, 2, 3, 4], [1, 2, 4, 3], [1, 3, 2, 4], [1, 3, 4, 2], [1, 4, 2, 3],
          [1, 4, 3, 2], [2, 1, 3, 4], [2, 1, 4, 3], [2, 3, 1, 4]]
        modifiers).length <
      ([[1, 2, 3, 4], [1, 2, 4, 3], [1, 3, 2, 4], [1, 3, 4, 2], [1, 4, 2, 3],
          [1, 4, 3, 2], [2, 1, 3, 4], [2, 1, 4, 3], [2, 3, 1, 4]] :
        List (List ℤ)).length := by
  decide

/-- C8 (amended): for every non-empty duplicate-free set `a` of equal-length
SORTED tuples and non-empty modifier list, the candidate set never shrinks:
`expand_modifiers` yields at least as many tuples as it was given.  (The
sortedness hypothesis is what `main` maintains; without it the count can
shrink.) -/
theorem expand_modifiers_card_ge (a : List (List ℤ)) (M : List ℤ) (k : Nat)
    (_ha : a ≠ []) (hM : M ≠ []) (hnd : a.Nodup)
    (hsorted : ∀ x ∈ a, List.Sorted (· ≤ ·) x) (_hlen : ∀ x ∈ a, x.length = k) :
    a.length ≤ (expand_modifiers a M).length := by
  obtain ⟨m, hm⟩ : ∃ m, m ∈ M := List.exists_mem_of_ne_nil M hM
  have hinj : Set.InjOn (fun x => pysorted (x ++ [m])) a.toFinset := by
    intro x₁ hx₁ x₂ hx₂ hfeq
    simp only [Finset.coe_sort_coe, Finset.mem_coe, List.mem_toFinset] at hx₁ hx₂
    have hfeq2 : pysorted (x₁ ++ [m]) = pysorted (x₂ ++ [m]) := hfeq
    have hperm : (x₁ ++ [m]).Perm (x₂ ++ [m]) :=
      ((pysorted_perm (x₁ ++ [m])).symm.trans (hfeq2 ▸ pysorted_perm (x₂ ++ [m])))
    have hcons : (m :: x₁).Perm (m :: x₂) :=
      ((List.perm_append_singleton m x₁).symm.trans hperm).trans
        (List.perm_append_singleton m x₂)
    exact List.eq_of_perm_of_sorted hcons.cons_inv (hsorted x₁ hx₁) (hsorted x₂ hx₂)
  have hsub : a.toFinset.image (fun x => pysorted (x ++ [m])) ⊆
      (expand_modifiers a M).toFinset := by
    intro c hc
    obtain ⟨x, hx, rfl⟩ := Finset.mem_image.mp hc
    exact List.mem_toFinset.mpr (mem_expand_modifiers (List.mem_toFinset.mp hx) hm)
  calc a.length = a.toFinset.card := (List.toFinset_card_of_nodup hnd).symm
    _ = (a.toFinset.image (fun x => pysorted (x ++ [m]))).card :=
        (Finset.card_image_of_injOn hinj).symm
    _ ≤ (expand_modifiers a M).toFinset.card := Finset.card_le_card hsub
    _ = (expand_modifiers a M).length :=
        List.toFinset_card_of_nodup (by rw [expand_modifiers]; exact List.nodup_dedup _)

/-- Witness for C8 (amended) at `a = {(1, 2), (1, 3)}`, `M = [5]`. -/
theorem expand_modifiers_card_ge_witness :
    ([[1, 2], [1, 3]] : List (List ℤ)).length ≤
      (expand_modifiers [[1, 2], [1, 3]] [5]).length :=
  expand_modifiers_card_ge [[1, 2], [1, 3]] [5] 2 (by decide) (by decide)
    (by decide) (by decide) (by decide)

/-- C3: for every target `T` reachable as a sum of some multiset over the
fixed modifier set, `main(T)` with no required modifiers terminates — with
enough fuel the embedded loop returns — and the returned sequence sums to
`T`.  (In particular this holds for target `0`; see the witness.) -/
theorem main_terminates_on_reachable (T : ℤ)
    (_hreach : ∃ l : List ℤ, (∀ x ∈ l, x ∈ modifiers) ∧ l.sum = T) :
    ∃ fuel ans, TFC.main T [] fuel = PyResult.ok ans ∧ ans.sum = T := by
  by_cases hr : (detect_multiplier T modifiers).1 ≤ 1
  · -- seed is all singletons: some round enumerates a witness list
    have hseed : multiplier_calibration T modifiers =
        (modifiers.map (fun i => [i])).dedup := by
      simp only [multiplier_calibration, generate_multiplier_first_moves]
      rw [if_pos hr]
    obtain ⟨l, hne, hmem, hsum⟩ := reach_any_int T
    obtain ⟨m, l2, rfl⟩ : ∃ m l2, l = m :: l2 := by
      cases l with
      | nil => exact absurd rfl hne
      | cons m l2 => exact ⟨m, l2, rfl⟩
    have hm : [m] ∈ multiplier_calibration T modifiers := by
      rw [hseed, List.mem_dedup, List.mem_map]
      exact ⟨m, hmem m (List.mem_cons_self _ _), rfl⟩
    have hc : pysorted ([m] ++ l2) ∈
        iterExpand modifiers l2.length (multiplier_calibration T modifiers) :=
      mem_iterExpand l2 (fun x hx => hmem x (List.mem_cons_of_mem _ hx)) hm
        (List.sorted_singleton m)
    have hcsum : (pysorted ([m] ++ l2)).sum = T := by
      rw [pysorted_sum]
      simpa using hsum
    obtain ⟨c, hcfind⟩ := searchLoop_finds l2.length _ ⟨_, hc, hcsum⟩
    refine ⟨l2.length + 1, c, ?_, searchLoop_sum hcfind⟩
    rw [TFC.main, if_pos (by simp)]
    simp only [List.sum_nil, sub_zero]
    rw [hcfind]
    simp
  · -- seed is the single repeated-base combination; complete it to T
    push_neg at hr
    have hseed : multiplier_calibration T modifiers =
        [List.replicate (detect_multiplier T modifiers).1.toNat
          (detect_multiplier T modifiers).2] := by
      simp only [multiplier_calibration, generate_multiplier_first_moves]
      rw [if_neg (not_le.mpr hr)]
    obtain ⟨l, -, hmem, hsum⟩ := reach_any_int
      (T - ((detect_multiplier T modifiers).1.toNat : ℤ) *
        (detect_multiplier T modifiers).2)
    have hx : List.replicate (detect_multiplier T modifiers).1.toNat
        (detect_multiplier T modifiers).2 ∈ multiplier_calibration T modifiers := by
      rw [hseed]
      exact List.mem_singleton.mpr rfl
    have hc : pysorted (List.replicate (detect_multiplier T modifiers).1.toNat
          (detect_multiplier T modifiers).2 ++ l) ∈
        iterExpand modifiers l.length (multiplier_calibration T modifiers) :=
      mem_iterExpand l hmem hx (sorted_replicate _ _)
    have hcsum : (pysorted (List.replicate (detect_multiplier T modifiers).1.toNat
        (detect_multiplier T modifiers).2 ++ l)).sum = T := by
      rw [pysorted_sum, List.sum_append, List.sum_replicate, nsmul_eq_mul, hsum]
      ring
    obtain ⟨c, hcfind⟩ := searchLoop_finds l.length _ ⟨_, hc, hcsum⟩
    refine ⟨l.length + 1, c, ?_, searchLoop_sum hcfind⟩
    rw [TFC.main, if_pos (by simp)]
    simp only [List.sum_nil, sub_zero]
    rw [hcfind]
    simp

/-- Witness for C3 at the boundary target `0`, reachable as `2 + 13 - 15`:
the call with target `0` and no required modifiers terminates. -/
theorem main_terminates_on_reachable_witness :
    ∃ fuel ans, TFC.main 0 [] fuel = PyResult.ok ans ∧ ans.sum = 0 :=
  main_terminates_on_reachable 0 ⟨[2, 13, -15], by decide, by decide⟩
